import Mathlib

/-!
# AirPodsDesktop: the tray icon (`Source/Gui/TrayIcon.cpp`)

A shallow embedding of `TrayIcon::GenerateIcon` (with its local lambda
`adjustFont` and its function-local static `trayIconFonts`) and of
`TrayIcon::UpdateState`, followed by the properties proved about them.

Conventions of the embedding.

* C++ `int` values are `Int`.  The functions embedded here perform no `int`
  arithmetic (the only arithmetic is done in `double`), so no wrap-around
  can occur.
* C++ `double` values are exact rationals (`ℚ`).  Every `double` computed by
  `GenerateIcon` for the badge is an integer-valued combination of `int`s
  and is therefore exact.  `size * 0.8` is only used after conversion to
  `int`; the `double` nearest to 0.8 is off by less than one part in `2^54`,
  too little to move the product of a 32-bit `size` across an integer, so the
  truncation of the exact product is the `int` the program obtains.
  The dot block (lines 225-228) is not integer-valued: there every `double`
  operation is the exact operation followed by `roundDouble`, the IEEE 754
  binary64 rounding to nearest with ties to even.
* The toolkit is a parameter: font metrics, the application font family and
  the validity of the embedded SVG come from a `Toolkit` record.
* A `QImage` is the canvas size together with the sequence of paint calls
  issued on its painter, in program order.
* The function-local static `trayIconFonts` is explicit state that
  `GenerateIcon` receives and returns.
-/

namespace Gui

/-! ## Toolkit values -/

/-- The font constructed by `QFont font{family, i}; font.setBold(true);`:
family, point size and the bold flag. -/
structure QFont where
  family : String
  pointSize : Int
  bold : Bool
  deriving DecidableEq, Repr

/-- An RGBA colour, as `QColor{r, g, b}` builds it (alpha 255). -/
structure QColor where
  red : Nat
  green : Nat
  blue : Nat
  alpha : Nat
  deriving DecidableEq, Repr

/-- The colour `Qt::white`. -/
def Qt.white : QColor := ⟨255, 255, 255, 255⟩

/-- The colour `Qt::transparent`. -/
def Qt.transparent : QColor := ⟨0, 0, 0, 0⟩

/-- A `QRectF{x, y, width, height}`. -/
structure QRectF where
  x : ℚ
  y : ℚ
  w : ℚ
  h : ℚ
  deriving DecidableEq

/-- `QRectF::left()`. -/
def QRectF.left (r : QRectF) : ℚ := r.x

/-- `QRectF::top()`. -/
def QRectF.top (r : QRectF) : ℚ := r.y

/-- `QRectF::width()`. -/
def QRectF.width (r : QRectF) : ℚ := r.w

/-- `QRectF::height()`. -/
def QRectF.height (r : QRectF) : ℚ := r.h

/-- `QRectF::right()`, which is `x + width`. -/
def QRectF.right (r : QRectF) : ℚ := r.x + r.w

/-- `QRectF::bottom()`, which is `y + height`. -/
def QRectF.bottom (r : QRectF) : ℚ := r.y + r.h

/-- The `QSizeF{w, h}` used for `kMargin`. -/
structure QSizeF where
  w : ℚ
  h : ℚ
  deriving DecidableEq

/-- `QSizeF::width()`. -/
def QSizeF.width (s : QSizeF) : ℚ := s.w

/-- `QSizeF::height()`. -/
def QSizeF.height (s : QSizeF) : ℚ := s.h

/-- What `GenerateIcon` asks of the toolkit and of the application.

* `svgValid`: whether `QSvgRenderer{QString{Config::QrcIconSvg}}` loaded a
  valid document; `render` paints only in that case.  `GenerateIcon` never
  inspects it.
* `appFontFamily`: `ApdApp->font().family()`.
* `fontHeight f`: `QFontMetrics{f}.height()`.
* `textWidth f s`: `QFontMetrics{f}.width(s)`. -/
structure Toolkit where
  svgValid : Bool
  appFontFamily : String
  fontHeight : QFont → Int
  textWidth : QFont → String → Int

/-! ## `adjustFont` (TrayIcon.cpp, lines 155-182) -/

/-- The test of line 164-165:
`currentHeight == desiredSize || lastHeight < desiredSize && currentHeight > desiredSize`. -/
def suitable (desiredSize lastHeight currentHeight : Int) : Bool :=
  currentHeight == desiredSize ||
    (decide (lastHeight < desiredSize) && decide (currentHeight > desiredSize))

/-- The loop `for (int i = ...; i < 100; i++)` of `adjustFont`, entered with
`remaining = 100 - i` iterations left, loop variable `i` and the current
value of `lastHeight`.  It returns from the first iteration whose test
succeeds, and falls through to `std::nullopt` when `i` reaches 100. -/
def adjustFontLoop (fontHeight : QFont → Int) (family : String) (desiredSize : Int) :
    Nat → Int → Int → Option QFont
  | 0, _, _ => none
  | remaining + 1, i, lastHeight =>
    let font : QFont := { family := family, pointSize := i, bold := true }
    let currentHeight := fontHeight font
    if suitable desiredSize lastHeight currentHeight then
      some font
    else
      adjustFontLoop fontHeight family desiredSize remaining (i + 1) currentHeight

/-- The lambda `adjustFont(family, desiredSize)`: `lastHeight = 0`, then the
loop from `i = 1` while `i < 100` (99 iterations). -/
def adjustFont (fontHeight : QFont → Int) (family : String) (desiredSize : Int) :
    Option QFont :=
  adjustFontLoop fontHeight family desiredSize 99 1 0

/-- The line height `H(p)` of the bold font of `family` at point size `p`. -/
def lineHeight (fontHeight : QFont → Int) (family : String) (p : Int) : Int :=
  fontHeight { family := family, pointSize := p, bold := true }

/-! ## The font table `trayIconFonts` (TrayIcon.cpp, line 153) -/

/-- The function-local static
`std::unordered_map<int, std::optional<QFont>> trayIconFonts`, as the list of
its (key, value) entries.  A value `none` is a stored `std::nullopt`. -/
abbrev FontCache := List (Int × Option QFont)

/-- The entry stored under `key`, if there is one (`find`). -/
def FontCache.find (m : FontCache) (key : Int) : Option (Option QFont) :=
  match m with
  | [] => none
  | (k, v) :: rest => if k = key then some v else FontCache.find rest key

/-- `trayIconFonts.contains(key)`. -/
def FontCache.contains (m : FontCache) (key : Int) : Bool :=
  (m.find key).isSome

/-- `trayIconFonts[key] = value`: the entry under `key` is created when there
is none, and then assigned. -/
def FontCache.assign (m : FontCache) (key : Int) (value : Option QFont) : FontCache :=
  match m with
  | [] => [(key, value)]
  | (k, v) :: rest =>
    if k = key then (k, value) :: rest else (k, v) :: FontCache.assign rest key value

/-- Reading `trayIconFonts[key]`: the stored value, a default-constructed
`std::nullopt` being inserted first when there is no entry. -/
def FontCache.index (m : FontCache) (key : Int) : FontCache × Option QFont :=
  match m.find key with
  | some v => (m, v)
  | none => (m.assign key none, none)

/-! ## IEEE 754 binary64 arithmetic -/

/-- Rounding of a rational to the nearest integer, a tie going to the even
neighbour. -/
def roundHalfEven (q : ℚ) : Int :=
  if q - ⌊q⌋ < 1 / 2 then ⌊q⌋
  else if 1 / 2 < q - ⌊q⌋ then ⌊q⌋ + 1
  else if ⌊q⌋ % 2 = 0 then ⌊q⌋ else ⌊q⌋ + 1

/-- The exponent `k` such that the doubles around `x` are the multiples of
`2 ^ k`: 52 binary places below the leading digit of `x` (a 53-bit
significand), and never finer than the subnormal spacing `2 ^ (-1074)`. -/
def ulpExponent (x : ℚ) : Int :=
  max (Int.log 2 |x| - 52) (-1074)

/-- The `double` nearest to `x`, ties to even: the value an IEEE 754 binary64
operation returns when its exact result is `x`.  Overflow is not represented:
the definition is the hardware's for `|x|` below `2 ^ 1024`, and every value
`GenerateIcon` computes from an `int` is below `2 ^ 33`. -/
def roundDouble (x : ℚ) : ℚ :=
  roundHalfEven (x / 2 ^ ulpExponent x) * 2 ^ ulpExponent x

/-- The `double` product `a * b`. -/
def Double.mul (a b : ℚ) : ℚ := roundDouble (a * b)

/-- The `double` difference `a - b`. -/
def Double.sub (a b : ℚ) : ℚ := roundDouble (a - b)

/-- The `double` sum `a + b`. -/
def Double.add (a b : ℚ) : ℚ := roundDouble (a + b)

/-- The literal `0.4` of line 225: the `double` nearest to 2/5. -/
def double0_4 : ℚ := roundDouble 0.4

/-! ## `GenerateIcon` (TrayIcon.cpp, lines 134-233) -/

/-- A paint call issued while composing the icon. -/
inductive PaintOp where
  | fill (c : QColor)
  | renderSvg
  | setRenderHintAntialiasing
  | save
  | restore
  | setPen (c : QColor)
  | setBrush (c : QColor)
  | setFont (f : QFont)
  | drawRoundedRect (r : QRectF) (xRadius yRadius : ℚ)
  | drawText (r : QRectF) (text : String)
  | drawEllipse (r : QRectF)
  deriving DecidableEq

/-- The `QImage result{size, size, QImage::Format_ARGB32}` together with the
paint calls issued on it. -/
structure QImage where
  width : Int
  height : Int
  ops : List PaintOp
  deriving DecidableEq

/-- Conversion of a `double` to `int`: truncation toward zero. -/
def toInt (x : ℚ) : Int :=
  if 0 ≤ x then ⌊x⌋ else ⌈x⌉

/-- The value `size * 0.8` of line 184 (a `double`), converted to the `int`
that `contains`, `operator[]` and `adjustFont` receive as key and as
`desiredSize`. -/
def desiredTextHeight (size : Int) : Int :=
  toInt ((size : ℚ) * 0.8)

/-- Lines 186-190: the font for the height `textHeight`, computed by
`adjustFont` for the application font family and stored when the table has
no entry for it, then read back from the table. -/
def resolveFont (tk : Toolkit) (trayIconFonts : FontCache) (textHeight : Int) :
    FontCache × Option QFont :=
  let fonts :=
    if !trayIconFonts.contains textHeight then
      trayIconFonts.assign textHeight (adjustFont tk.fontHeight tk.appFontFamily textHeight)
    else
      trayIconFonts
  fonts.index textHeight

/-- The constant `kMargin = QSizeF{2, 0}` of line 200. -/
def kMargin : QSizeF := ⟨2, 0⟩

/-- The rectangle `textRect` of lines 202-204. -/
def textRect (size textWidth : Int) (textHeight : ℚ) : QRectF :=
  { x := (size : ℚ) - textWidth - kMargin.width
    y := size - textHeight - kMargin.height
    w := (textWidth : ℚ)
    h := textHeight }

/-- The rectangle `bgRect` of lines 205-207, built from `textRect`. -/
def bgRect (textRect : QRectF) : QRectF :=
  { x := textRect.left - kMargin.width
    y := textRect.top - kMargin.height
    w := textRect.width + kMargin.width * 2
    h := textRect.height + kMargin.height * 2 }

/-- The paint calls of lines 209-214 for a resolved font. -/
def badgeOps (tk : Toolkit) (size : Int) (text : String) (font : QFont) : List PaintOp :=
  let textWidth := tk.textWidth font text
  let textHeight : ℚ := tk.fontHeight font
  let tRect := textRect size textWidth textHeight
  let bRect := bgRect tRect
  [ PaintOp.setPen Qt.white,
    PaintOp.setBrush ⟨255, 36, 66, 255⟩,
    PaintOp.setFont font,
    PaintOp.drawRoundedRect bRect 10 10,
    PaintOp.drawText tRect text ]

/-- The first `do { ... } while (false)` block (lines 147-216): the font
table afterwards and the paint calls issued. -/
def badgeLayer (tk : Toolkit) (trayIconFonts : FontCache) (size : Int)
    (optText : Option String) : FontCache × List PaintOp :=
  match optText with
  | none => (trayIconFonts, [])
  | some text =>
    if text = "" then
      (trayIconFonts, [])
    else
      match resolveFont tk trayIconFonts (desiredTextHeight size) with
      | (fonts, none) => (fonts, [])
      | (fonts, some font) => (fonts, badgeOps tk size text font)

/-- The second `do { ... } while (false)` block (lines 220-229).  The `int`
`size` converts to `double` exactly; `size * 0.4` and `size - dotDiameter`
are `double` operations. -/
def dotLayer (size : Int) (dot : Option QColor) : List PaintOp :=
  match dot with
  | none => []
  | some c =>
    let dotDiameter : ℚ := Double.mul (size : ℚ) double0_4
    [ PaintOp.setBrush c,
      PaintOp.drawEllipse ⟨Double.sub (size : ℚ) dotDiameter, 0, dotDiameter, dotDiameter⟩ ]

/-- The paint calls of lines 140-144: clear the canvas, render the base
SVG (which paints only when the document is valid), set antialiasing. -/
def baseLayer (tk : Toolkit) : List PaintOp :=
  [PaintOp.fill Qt.transparent] ++
    (if tk.svgValid then [PaintOp.renderSvg] else []) ++
    [PaintOp.setRenderHintAntialiasing]

/-- `TrayIcon::GenerateIcon(size, optText, dot)`: the font table afterwards
and the returned `std::optional<QImage>`. -/
def GenerateIcon (tk : Toolkit) (trayIconFonts : FontCache) (size : Int)
    (optText : Option String) (dot : Option QColor) : FontCache × Option QImage :=
  let badge := badgeLayer tk trayIconFonts size optText
  (badge.1,
    some
      { width := size
        height := size
        ops :=
          baseLayer tk ++ [PaintOp.save] ++ badge.2 ++ [PaintOp.restore] ++
            [PaintOp.save] ++ dotLayer size dot ++ [PaintOp.restore] })

/-! ## `UpdateState` (TrayIcon.cpp, lines 57-109) -/

/-- One earbud of `Core::AirPods::State::pods`, with the two members
`UpdateState` reads. -/
structure Pod where
  battery : Option Nat
  isCharging : Bool
  deriving DecidableEq

/-- The member `state.pods`. -/
structure Pods where
  left : Pod
  right : Pod
  deriving DecidableEq

/-- The member `state.caseBox`. -/
structure CaseBox where
  battery : Option Nat
  isCharging : Bool
  deriving DecidableEq

/-- The members of `Core::AirPods::State` that `UpdateState` reads. -/
structure State where
  pods : Pods
  caseBox : CaseBox
  deriving DecidableEq

/-- What `UpdateState` asks of the application.

* `displayName`: `Core::AirPods::GetDisplayName()`.
* `batteryLine fmt value charging`: the string
  `QString{tr(fmt)}.arg(value).arg(charging ? tr(" (charging)") : "")`.
* `trayIconBattery`: `Core::Settings::ConstAccess()->tray_icon_battery`. -/
structure App where
  displayName : String
  batteryLine : String → Nat → Bool → String
  trayIconBattery : Bool

/-- What `UpdateState` does to its surroundings, in program order. -/
inductive Effect where
  | setToolTip (toolTip : String)
  | callGenerateIcon (size : Int) (optText : Option String) (dot : Option QColor)
  | setIconImage (image : QImage)
  | setIconWindowIcon
  deriving DecidableEq

/-- The local `minBattery` after lines 60-88.  The inner `match` is the
short-circuit `minBattery.has_value() && batteryValue < minBattery.value()`. -/
def minBattery (state : State) : Option Nat :=
  let minBattery : Option Nat := none
  let minBattery :=
    match state.pods.left.battery with
    | some batteryValue => some batteryValue
    | none => minBattery
  match state.pods.right.battery with
  | some batteryValue =>
    if (match minBattery with
        | some m => decide (batteryValue < m)
        | none => false) || !minBattery.isSome then
      some batteryValue
    else
      minBattery
  | none => minBattery

/-- The local `toolTip` after lines 59-94. -/
def toolTip (app : App) (state : State) : String :=
  let toolTip := "" ++ app.displayName
  let toolTip :=
    match state.pods.left.battery with
    | some batteryValue =>
      toolTip ++ app.batteryLine "\nLeft: %1%%2" batteryValue state.pods.left.isCharging
    | none => toolTip
  let toolTip :=
    match state.pods.right.battery with
    | some batteryValue =>
      toolTip ++ app.batteryLine "\nRight: %1%%2" batteryValue state.pods.right.isCharging
    | none => toolTip
  match state.caseBox.battery with
  | some batteryValue =>
    toolTip ++ app.batteryLine "\nCase: %1%%2" batteryValue state.caseBox.isCharging
  | none => toolTip

/-- `TrayIcon::UpdateState(state)`: the font table afterwards and the effects
performed, in order.  `QString::number` is the decimal rendering. -/
def UpdateState (app : App) (tk : Toolkit) (trayIconFonts : FontCache) (state : State) :
    FontCache × List Effect :=
  let tip := Effect.setToolTip (toolTip app state)
  match minBattery state, app.trayIconBattery with
  | some m, true =>
    let text := toString m
    match GenerateIcon tk trayIconFonts 64 (some text) none with
    | (fonts, some image) =>
      (fonts, [tip, Effect.callGenerateIcon 64 (some text) none, Effect.setIconImage image])
    | (fonts, none) =>
      (fonts, [tip, Effect.callGenerateIcon 64 (some text) none])
  | _, _ => (trayIconFonts, [tip, Effect.setIconWindowIcon])

/-! ## Specification-side notions -/

/-- The point size the specification asks for: `p` is the least integer in
`1..99` whose line height `H p` reaches the desired height `h`. -/
def IsLeastFit (H : Int → Int) (h p : Int) : Prop :=
  1 ≤ p ∧ p ≤ 99 ∧ h ≤ H p ∧ ∀ q, 1 ≤ q → q < p → H q < h

/-- No point size in `1..99` has a line height reaching `h`. -/
def NoFit (H : Int → Int) (h : Int) : Prop :=
  ∀ q, 1 ≤ q → q ≤ 99 → H q < h

/-- The minimum of the pod batteries that are present: the left one alone,
the right one alone, or the smaller of the two; absent when neither is
present. -/
def minPodBattery (state : State) : Option Nat :=
  match state.pods.left.battery, state.pods.right.battery with
  | none, none => none
  | some a, none => some a
  | none, some b => some b
  | some a, some b => some (min a b)

/-- Whether a badge is painted: a rounded rectangle or a text is drawn. -/
def drawsBadge (image : QImage) : Bool :=
  image.ops.any fun op =>
    match op with
    | PaintOp.drawRoundedRect _ _ _ => true
    | PaintOp.drawText _ _ => true
    | _ => false

/-- Whether an ellipse is painted. -/
def drawsEllipse (image : QImage) : Bool :=
  image.ops.any fun op =>
    match op with
    | PaintOp.drawEllipse _ => true
    | _ => false

/-- The point size the exact-match rule alone selects: `p` is the least
integer in `1..99` whose line height `H p` equals `h`. -/
def IsLeastExact (H : Int → Int) (h p : Int) : Prop :=
  1 ≤ p ∧ p ≤ 99 ∧ H p = h ∧ ∀ q, 1 ≤ q → q < p → H q ≠ h

/-- No point size in `1..99` has a line height equal to `h`. -/
def NoExact (H : Int → Int) (h : Int) : Prop :=
  ∀ q, 1 ≤ q → q ≤ 99 → H q ≠ h

/-! ## Lemmas about the scan -/

theorem suitable_of_last_lt {h last cur : Int} (hl : last < h) :
    suitable h last cur = true ↔ h ≤ cur := by
  simp only [suitable, Bool.or_eq_true, Bool.and_eq_true, beq_iff_eq, decide_eq_true_eq]
  omega

theorem suitable_of_le_last {h last cur : Int} (hl : h ≤ last) :
    suitable h last cur = true ↔ cur = h := by
  simp only [suitable, Bool.or_eq_true, Bool.and_eq_true, beq_iff_eq, decide_eq_true_eq]
  omega

/-- While the previous height is below `h`, the loop entered at `i` with `n`
iterations left returns exactly the first size in `[i, i + n)` whose height
reaches `h`. -/
theorem adjustFontLoop_some_of_last_lt (fontHeight : QFont → Int) (family : String) (h : Int) :
    ∀ (n : Nat) (i last : Int), last < h → ∀ f : QFont,
      (adjustFontLoop fontHeight family h n i last = some f ↔
        f.family = family ∧ f.bold = true ∧ i ≤ f.pointSize ∧ f.pointSize < i + n ∧
          h ≤ lineHeight fontHeight family f.pointSize ∧
          ∀ q, i ≤ q → q < f.pointSize → lineHeight fontHeight family q < h) := by
  intro n
  induction n with
  | zero =>
    intro i last _ f
    simp only [adjustFontLoop, Nat.cast_zero, add_zero]
    constructor
    · intro hf; cases hf
    · rintro ⟨_, _, h1, h2, _⟩; omega
  | succ n ih =>
    intro i last hl f
    simp only [adjustFontLoop]
    by_cases hs : suitable h last (fontHeight ⟨family, i, true⟩) = true
    · rw [if_pos hs]
      have hge : h ≤ lineHeight fontHeight family i := (suitable_of_last_lt hl).1 hs
      constructor
      · intro hf
        cases hf
        refine ⟨rfl, rfl, le_refl _, ?_, hge, ?_⟩
        · dsimp only; push_cast; omega
        · intro q h1 h2; dsimp only at h2; omega
      · rintro ⟨hfam, hbold, h1, _, _, hmin⟩
        have hp : f.pointSize = i := by
          by_contra hne
          have := hmin i (le_refl _) (by omega)
          omega
        cases f
        simp only at hfam hbold hp
        subst hfam hbold hp
        rfl
    · rw [if_neg hs]
      have hlt : lineHeight fontHeight family i < h := by
        have := (@suitable_of_last_lt h last (fontHeight ⟨family, i, true⟩) hl).not.1 hs
        simp only [lineHeight]; omega
      have hH : fontHeight ⟨family, i, true⟩ = lineHeight fontHeight family i := rfl
      rw [hH, ih (i + 1) _ hlt f]
      constructor
      · rintro ⟨hfam, hbold, h1, h2, h3, hmin⟩
        refine ⟨hfam, hbold, by omega, by push_cast; omega, h3, ?_⟩
        intro q hq1 hq2
        by_cases hqi : q = i
        · subst hqi; exact hlt
        · exact hmin q (by omega) hq2
      · rintro ⟨hfam, hbold, h1, h2, h3, hmin⟩
        have hne : f.pointSize ≠ i := by
          intro he
          rw [he] at h3
          omega
        refine ⟨hfam, hbold, by omega, by push_cast at h2; omega, h3, ?_⟩
        intro q hq1 hq2
        exact hmin q (by omega) hq2

/-- While the previous height is below `h`, the loop falls through exactly
when no size in `[i, i + n)` has a height reaching `h`. -/
theorem adjustFontLoop_none_of_last_lt (fontHeight : QFont → Int) (family : String) (h : Int) :
    ∀ (n : Nat) (i last : Int), last < h →
      (adjustFontLoop fontHeight family h n i last = none ↔
        ∀ q, i ≤ q → q < i + n → lineHeight fontHeight family q < h) := by
  intro n
  induction n with
  | zero =>
    intro i last _
    simp only [adjustFontLoop, Nat.cast_zero, add_zero, true_iff]
    intro q h1 h2; omega
  | succ n ih =>
    intro i last hl
    simp only [adjustFontLoop]
    by_cases hs : suitable h last (fontHeight ⟨family, i, true⟩) = true
    · rw [if_pos hs]
      have hge : h ≤ lineHeight fontHeight family i := (suitable_of_last_lt hl).1 hs
      constructor
      · intro hf; cases hf
      · intro hall
        have := hall i (le_refl _) (by push_cast; omega)
        omega
    · rw [if_neg hs]
      have hlt : lineHeight fontHeight family i < h := by
        have := (@suitable_of_last_lt h last (fontHeight ⟨family, i, true⟩) hl).not.1 hs
        simp only [lineHeight]; omega
      have hH : fontHeight ⟨family, i, true⟩ = lineHeight fontHeight family i := rfl
      rw [hH, ih (i + 1) _ hlt]
      constructor
      · intro hall q hq1 hq2
        by_cases hqi : q = i
        · subst hqi; exact hlt
        · exact hall q (by omega) (by push_cast at hq2; omega)
      · intro hall q hq1 hq2
        exact hall q (by omega) (by push_cast; omega)

/-- While the previous height is not below `h` and no height in
`[i, i + n)` is below `h`, the loop returns exactly the first size in that
range whose height equals `h`. -/
theorem adjustFontLoop_some_of_le_last (fontHeight : QFont → Int) (family : String) (h : Int) :
    ∀ (n : Nat) (i last : Int), h ≤ last →
      (∀ q, i ≤ q → q < i + n → h ≤ lineHeight fontHeight family q) → ∀ f : QFont,
      (adjustFontLoop fontHeight family h n i last = some f ↔
        f.family = family ∧ f.bold = true ∧ i ≤ f.pointSize ∧ f.pointSize < i + n ∧
          lineHeight fontHeight family f.pointSize = h ∧
          ∀ q, i ≤ q → q < f.pointSize → lineHeight fontHeight family q ≠ h) := by
  intro n
  induction n with
  | zero =>
    intro i last _ _ f
    simp only [adjustFontLoop, Nat.cast_zero, add_zero]
    constructor
    · intro hf; cases hf
    · rintro ⟨_, _, h1, h2, _⟩; omega
  | succ n ih =>
    intro i last hl hall f
    have hH : fontHeight ⟨family, i, true⟩ = lineHeight fontHeight family i := rfl
    have hi : h ≤ lineHeight fontHeight family i := hall i (le_refl _) (by push_cast; omega)
    have hrest : ∀ q, i + 1 ≤ q → q < i + 1 + n → h ≤ lineHeight fontHeight family q :=
      fun q h1 h2 => hall q (by omega) (by push_cast; omega)
    simp only [adjustFontLoop]
    by_cases hs : suitable h last (fontHeight ⟨family, i, true⟩) = true
    · rw [if_pos hs]
      have heq : lineHeight fontHeight family i = h := (suitable_of_le_last hl).1 hs
      constructor
      · intro hf
        cases hf
        refine ⟨rfl, rfl, le_refl _, ?_, heq, ?_⟩
        · dsimp only; push_cast; omega
        · intro q h1 h2; dsimp only at h2; omega
      · rintro ⟨hfam, hbold, h1, _, _, hmin⟩
        have hp : f.pointSize = i := by
          by_contra hne
          exact hmin i (le_refl _) (by omega) heq
        cases f
        simp only at hfam hbold hp
        subst hfam hbold hp
        rfl
    · rw [if_neg hs]
      have hne : lineHeight fontHeight family i ≠ h := by
        have := (@suitable_of_le_last h last (fontHeight ⟨family, i, true⟩) hl).not.1 hs
        simpa only [lineHeight] using this
      rw [hH, ih (i + 1) _ hi hrest f]
      constructor
      · rintro ⟨hfam, hbold, h1, h2, h3, hmin⟩
        refine ⟨hfam, hbold, by omega, by push_cast; omega, h3, ?_⟩
        intro q hq1 hq2
        by_cases hqi : q = i
        · subst hqi; exact hne
        · exact hmin q (by omega) hq2
      · rintro ⟨hfam, hbold, h1, h2, h3, hmin⟩
        have hpi : f.pointSize ≠ i := by
          intro he
          rw [he] at h3
          exact hne h3
        refine ⟨hfam, hbold, by omega, by push_cast at h2; omega, h3, ?_⟩
        intro q hq1 hq2
        exact hmin q (by omega) hq2

/-- While the previous height is not below `h` and no height in
`[i, i + n)` is below `h`, the loop falls through exactly when no size in
that range has the height `h`. -/
theorem adjustFontLoop_none_of_le_last (fontHeight : QFont → Int) (family : String) (h : Int) :
    ∀ (n : Nat) (i last : Int), h ≤ last →
      (∀ q, i ≤ q → q < i + n → h ≤ lineHeight fontHeight family q) →
      (adjustFontLoop fontHeight family h n i last = none ↔
        ∀ q, i ≤ q → q < i + n → lineHeight fontHeight family q ≠ h) := by
  intro n
  induction n with
  | zero =>
    intro i last _ _
    simp only [adjustFontLoop, Nat.cast_zero, add_zero, true_iff]
    intro q h1 h2; omega
  | succ n ih =>
    intro i last hl hall
    have hH : fontHeight ⟨family, i, true⟩ = lineHeight fontHeight family i := rfl
    have hi : h ≤ lineHeight fontHeight family i := hall i (le_refl _) (by push_cast; omega)
    have hrest : ∀ q, i + 1 ≤ q → q < i + 1 + n → h ≤ lineHeight fontHeight family q :=
      fun q h1 h2 => hall q (by omega) (by push_cast; omega)
    simp only [adjustFontLoop]
    by_cases hs : suitable h last (fontHeight ⟨family, i, true⟩) = true
    · rw [if_pos hs]
      have heq : lineHeight fontHeight family i = h := (suitable_of_le_last hl).1 hs
      constructor
      · intro hf; cases hf
      · intro hno
        exact absurd heq (hno i (le_refl _) (by push_cast; omega))
    · rw [if_neg hs]
      have hne : lineHeight fontHeight family i ≠ h := by
        have := (@suitable_of_le_last h last (fontHeight ⟨family, i, true⟩) hl).not.1 hs
        simpa only [lineHeight] using this
      rw [hH, ih (i + 1) _ hi hrest]
      constructor
      · intro hno q hq1 hq2
        by_cases hqi : q = i
        · subst hqi; exact hne
        · exact hno q (by omega) (by push_cast at hq2; omega)
      · intro hno q hq1 hq2
        exact hno q (by omega) (by push_cast; omega)

/-! ## Lemmas about the conversion of `size * 0.8` -/

/-- Truncating `size * 0.8` toward zero is integer division of `4 * size` by 5,
rounded toward zero. -/
theorem toInt_scale (s : Int) :
    toInt ((s : ℚ) * 0.8) = if 0 ≤ s then s * 4 / 5 else -((-s * 4) / 5) := by
  unfold toInt
  by_cases hs : 0 ≤ s
  · have h0 : (0 : ℚ) ≤ (s : ℚ) * 0.8 := by
      have : (0 : ℚ) ≤ (s : ℚ) := by exact_mod_cast hs
      positivity
    have h1 : (s : ℚ) * 0.8 = ((s * 4 : Int) : ℚ) / ((5 : Nat) : ℚ) := by
      push_cast; ring
    rw [if_pos h0, if_pos hs, h1, Rat.floor_intCast_div_natCast]
    rfl
  · have hs' : (s : ℚ) < 0 := by
      have : s < 0 := by omega
      exact_mod_cast this
    have h0 : ¬ (0 : ℚ) ≤ (s : ℚ) * 0.8 := by
      intro hc
      have : (0 : ℚ) < 0.8 := by norm_num
      nlinarith
    have h1 : (s : ℚ) * 0.8 = -(((-s * 4 : Int) : ℚ) / ((5 : Nat) : ℚ)) := by
      push_cast; ring
    rw [if_neg h0, if_neg hs, h1, Int.ceil_neg, Rat.floor_intCast_div_natCast]
    rfl

theorem desiredTextHeight_eq (size : Int) :
    desiredTextHeight size = if 0 ≤ size then size * 4 / 5 else -((-size * 4) / 5) :=
  toInt_scale size

theorem desiredTextHeight_one : desiredTextHeight 1 = 0 := by
  rw [desiredTextHeight_eq]; decide

theorem desiredTextHeight_64 : desiredTextHeight 64 = 51 := by
  rw [desiredTextHeight_eq]; decide

/-! ## Lemmas about the font table -/

theorem FontCache.find_assign_self (m : FontCache) (key : Int) (value : Option QFont) :
    (m.assign key value).find key = some value := by
  induction m with
  | nil => simp [FontCache.assign, FontCache.find]
  | cons e rest ih =>
    obtain ⟨k, v⟩ := e
    by_cases hk : k = key
    · simp [FontCache.assign, FontCache.find, hk]
    · simp [FontCache.assign, FontCache.find, hk, ih]

theorem FontCache.find_assign_of_ne (m : FontCache) (key other : Int) (value : Option QFont)
    (hne : other ≠ key) : (m.assign key value).find other = m.find other := by
  induction m with
  | nil =>
    have : ¬ key = other := fun h => hne h.symm
    simp [FontCache.assign, FontCache.find, this]
  | cons e rest ih =>
    obtain ⟨k, v⟩ := e
    by_cases hk : k = key
    · have hko : ¬ k = other := fun h => hne (h.symm.trans hk)
      simp only [FontCache.assign, if_pos hk, FontCache.find, if_neg hko]
    · by_cases hko : k = other
      · simp only [FontCache.assign, if_neg hk, FontCache.find, if_pos hko]
      · simp only [FontCache.assign, if_neg hk, FontCache.find, if_neg hko, ih]

/-- With an entry under `textHeight`, lines 186-190 return it and leave the
table as it is. -/
theorem resolveFont_of_find (tk : Toolkit) (fonts : FontCache) (textHeight : Int)
    (v : Option QFont) (hv : fonts.find textHeight = some v) :
    resolveFont tk fonts textHeight = (fonts, v) := by
  simp [resolveFont, FontCache.contains, FontCache.index, hv]

/-- Without an entry under `textHeight`, lines 186-190 store and return what
`adjustFont` computes. -/
theorem resolveFont_of_find_none (tk : Toolkit) (fonts : FontCache) (textHeight : Int)
    (hv : fonts.find textHeight = none) :
    resolveFont tk fonts textHeight =
      (fonts.assign textHeight (adjustFont tk.fontHeight tk.appFontFamily textHeight),
        adjustFont tk.fontHeight tk.appFontFamily textHeight) := by
  simp [resolveFont, FontCache.contains, FontCache.index, hv, FontCache.find_assign_self]

/-- After lines 186-190 the result is the entry stored under `textHeight`. -/
theorem resolveFont_find_self (tk : Toolkit) (fonts : FontCache) (textHeight : Int) :
    (resolveFont tk fonts textHeight).1.find textHeight =
      some (resolveFont tk fonts textHeight).2 := by
  cases hv : fonts.find textHeight with
  | none => rw [resolveFont_of_find_none tk fonts textHeight hv]
            exact FontCache.find_assign_self _ _ _
  | some v => rw [resolveFont_of_find tk fonts textHeight v hv]; exact hv

/-- Lines 186-190 keep every entry the table already has. -/
theorem resolveFont_find_of_find (tk : Toolkit) (fonts : FontCache) (textHeight key : Int)
    (v : Option QFont) (hv : fonts.find key = some v) :
    (resolveFont tk fonts textHeight).1.find key = some v := by
  cases ht : fonts.find textHeight with
  | none =>
    rw [resolveFont_of_find_none tk fonts textHeight ht]
    have hne : key ≠ textHeight := by
      intro h; rw [h, ht] at hv; cases hv
    show (fonts.assign textHeight _).find key = some v
    rw [FontCache.find_assign_of_ne _ _ _ _ hne]; exact hv
  | some w => rw [resolveFont_of_find tk fonts textHeight w ht]; exact hv

/-- The badge block with a present, non-empty text. -/
theorem badgeLayer_of_text (tk : Toolkit) (fonts : FontCache) (size : Int) (text : String)
    (htext : text ≠ "") :
    badgeLayer tk fonts size (some text) =
      ((resolveFont tk fonts (desiredTextHeight size)).1,
        match (resolveFont tk fonts (desiredTextHeight size)).2 with
        | none => []
        | some font => badgeOps tk size text font) := by
  simp only [badgeLayer, if_neg htext]
  rcases hr : resolveFont tk fonts (desiredTextHeight size) with ⟨c, _ | font⟩ <;> rfl

/-! ## Font fitting: the scan returns the least size reaching the height -/

/-- C1.  For every font-metrics function (hence every line-height function
`H p = lineHeight fontHeight family p`, with no monotonicity assumed) and every
desired height `h ≥ 1`: `adjustFont` returns a font `f` exactly when `f` is the
bold font of the requested family whose point size is the least `p` in `1..99`
with `H p ≥ h`, and it returns `std::nullopt` exactly when no `p` in `1..99`
has `H p ≥ h`. -/
theorem adjustFont_least_fit (fontHeight : QFont → Int) (family : String) (h : Int)
    (hh : 1 ≤ h) :
    (∀ f : QFont, adjustFont fontHeight family h = some f ↔
        f.family = family ∧ f.bold = true ∧
          IsLeastFit (lineHeight fontHeight family) h f.pointSize) ∧
      (adjustFont fontHeight family h = none ↔ NoFit (lineHeight fontHeight family) h) := by
  constructor
  · intro f
    rw [adjustFont, adjustFontLoop_some_of_last_lt fontHeight family h 99 1 0 (by omega) f]
    simp only [IsLeastFit]
    constructor
    · rintro ⟨h1, h2, h3, h4, h5, h6⟩
      exact ⟨h1, h2, h3, by push_cast at h4; omega, h5, h6⟩
    · rintro ⟨h1, h2, h3, h4, h5, h6⟩
      exact ⟨h1, h2, h3, by push_cast; omega, h5, h6⟩
  · rw [adjustFont, adjustFontLoop_none_of_last_lt fontHeight family h 99 1 0 (by omega)]
    simp only [NoFit]
    constructor
    · intro hall q h1 h2
      exact hall q h1 (by push_cast; omega)
    · intro hall q h1 h2
      exact hall q h1 (by push_cast at h2; omega)

/-- The identity height function and `h = 37`: the fit is the size 37. -/
theorem adjustFont_least_fit_witness :
    (1 : Int) ≤ 37 ∧
      adjustFont (fun f => f.pointSize) "Sans" 37 = some ⟨"Sans", 37, true⟩ :=
  ⟨by decide,
    ((adjustFont_least_fit (fun f => f.pointSize) "Sans" 37 (by decide)).1
        ⟨"Sans", 37, true⟩).2
      ⟨rfl, rfl, by decide, by decide, by decide, fun q _ hq => hq⟩⟩

/-- A height function that jumps from 36 to 39 (sizes up to 36 have their own
size as height, larger sizes have height `p + 2`), and `h = 37`: the scan
returns the size 37, whose height is 39, and not the size 36. -/
theorem adjustFont_step_skips_37 :
    adjustFont (fun f => if f.pointSize ≤ 36 then f.pointSize else f.pointSize + 2) "Sans" 37
      = some ⟨"Sans", 37, true⟩ := by
  decide

/-- A height function that is not monotone (it dips after size 2): the scan
still stops at the first size reaching the height. -/
theorem adjustFont_not_monotone :
    adjustFont (fun f => if f.pointSize = 2 then 50 else 3) "Sans" 10
      = some ⟨"Sans", 2, true⟩ := by
  decide

/-! ## The font table is a write-once cache -/

/-- C2.  For every table state, every height `h` and every two toolkits
(the family requested and the font metrics at the first and at a later call):
a height that has an entry is answered from the table, which stays as it is;
after a resolution of `h` its result is the entry stored under `h`; a
resolution keeps every entry the table already had; hence resolving `h` again,
under any toolkit, returns the same result and the same table.  The table
`GenerateIcon` leaves for a non-empty text is the one of this resolution. -/
theorem resolveFont_cached (tk later : Toolkit) (fonts : FontCache) (h : Int) :
    (∀ v, fonts.find h = some v → resolveFont later fonts h = (fonts, v)) ∧
      (resolveFont tk fonts h).1.find h = some (resolveFont tk fonts h).2 ∧
      (∀ key v, fonts.find key = some v → (resolveFont tk fonts h).1.find key = some v) ∧
      resolveFont later (resolveFont tk fonts h).1 h = resolveFont tk fonts h ∧
      (∀ (size : Int) (text : String) (dot : Option QColor), text ≠ "" →
        (GenerateIcon tk fonts size (some text) dot).1
          = (resolveFont tk fonts (desiredTextHeight size)).1) := by
  refine ⟨fun v hv => resolveFont_of_find later fonts h v hv, resolveFont_find_self tk fonts h,
    fun key v hv => resolveFont_find_of_find tk fonts h key v hv, ?_, ?_⟩
  · exact resolveFont_of_find later _ h _ (resolveFont_find_self tk fonts h)
  · intro size text dot htext
    simp only [GenerateIcon, badgeLayer_of_text tk fonts size text htext]

/-- A table whose entry for 51 is a stale font of another family: the entry
is returned and the table is unchanged, whatever the metrics. -/
theorem resolveFont_stale_entry :
    resolveFont ⟨true, "Sans", fun f => f.pointSize, fun _ _ => 0⟩
        [(51, some ⟨"Serif", 7, true⟩)] 51
      = ([(51, some ⟨"Serif", 7, true⟩)], some ⟨"Serif", 7, true⟩) := by
  decide

/-! ## `GenerateIcon` always returns an image -/

/-- C3, as the code has it.  `GenerateIcon` returns an image of the requested
size for every toolkit, table, size, text and dot colour; whether the base SVG
was valid only decides whether the base art is among the paint calls. -/
theorem GenerateIcon_returns_image (tk : Toolkit) (fonts : FontCache) (size : Int)
    (optText : Option String) (dot : Option QColor) :
    ∃ image, (GenerateIcon tk fonts size optText dot).2 = some image ∧
      image.width = size ∧ image.height = size ∧
      image.ops =
        baseLayer tk ++ [PaintOp.save] ++ (badgeLayer tk fonts size optText).2 ++
          [PaintOp.restore] ++ [PaintOp.save] ++ dotLayer size dot ++ [PaintOp.restore] ∧
      (PaintOp.renderSvg ∈ baseLayer tk ↔ tk.svgValid = true) :=
  ⟨_, rfl, rfl, rfl, rfl, by cases hv : tk.svgValid <;> simp [baseLayer, hv]⟩

/-- C3, counterexample.  With an invalid base SVG, `GenerateIcon(64, nullopt,
nullopt)` still returns an image: a canvas on which no base art was painted. -/
theorem GenerateIcon_invalid_svg_returns_image :
    (GenerateIcon ⟨false, "Sans", fun f => f.pointSize, fun _ _ => 0⟩ [] 64 none none).2
      = some
          { width := 64
            height := 64
            ops :=
              [ PaintOp.fill Qt.transparent, PaintOp.setRenderHintAntialiasing,
                PaintOp.save, PaintOp.restore, PaintOp.save, PaintOp.restore ] } := by
  rfl

/-! ## A failed font fit leaves the badge out -/

/-- When lines 186-190 yield no font for a non-empty text, the image is the
one of the call without a text and holds no badge. -/
theorem GenerateIcon_image_of_no_font (tk : Toolkit) (fonts : FontCache) (size : Int)
    (text : String) (dot : Option QColor) (htext : text ≠ "")
    (hfit : (resolveFont tk fonts (desiredTextHeight size)).2 = none) :
    (GenerateIcon tk fonts size (some text) dot).2 = (GenerateIcon tk fonts size none dot).2 ∧
      ∃ image, (GenerateIcon tk fonts size (some text) dot).2 = some image ∧
        image.ops =
          baseLayer tk ++ [PaintOp.save, PaintOp.restore, PaintOp.save] ++ dotLayer size dot ++
            [PaintOp.restore] ∧
        drawsBadge image = false := by
  have hb : (badgeLayer tk fonts size (some text)).2 = [] := by
    rw [badgeLayer_of_text tk fonts size text htext, hfit]
  refine ⟨?_, _, rfl, ?_, ?_⟩
  · show some (QImage.mk size size (_ ++ (badgeLayer tk fonts size (some text)).2 ++ _ ++ _ ++ _
      ++ _)) = _
    rw [hb]
    rfl
  · simp only [hb, List.append_nil, List.append_assoc, List.cons_append, List.nil_append]
  · simp only [drawsBadge, hb, baseLayer, dotLayer]
    cases tk.svgValid <;> cases dot <;> simp

/-- C4.  For every size, every non-empty text and every optional dot colour:
when the font resolved for the request's height is `std::nullopt`,
`GenerateIcon` returns an image, that image is the one of the same call
without a text (base art, then the optional dot), and neither a rounded
rectangle nor a text is drawn. -/
theorem GenerateIcon_no_fit (tk : Toolkit) (fonts : FontCache) (size : Int) (text : String)
    (dot : Option QColor) (htext : text ≠ "")
    (hfit : (resolveFont tk fonts (desiredTextHeight size)).2 = none) :
    (GenerateIcon tk fonts size (some text) dot).2 = (GenerateIcon tk fonts size none dot).2 ∧
      ∃ image, (GenerateIcon tk fonts size (some text) dot).2 = some image ∧
        image.ops =
          baseLayer tk ++ [PaintOp.save, PaintOp.restore, PaintOp.save] ++ dotLayer size dot ++
            [PaintOp.restore] ∧
        drawsBadge image = false :=
  GenerateIcon_image_of_no_font tk fonts size text dot htext hfit

/-- Size 1 asks for the height 0, which a toolkit whose fonts all have height
5 cannot provide: the icon is the one without a badge. -/
theorem GenerateIcon_no_fit_witness :
    "42" ≠ "" ∧
      (resolveFont ⟨true, "Sans", fun _ => 5, fun _ _ => 9⟩ [] (desiredTextHeight 1)).2 = none ∧
      (GenerateIcon ⟨true, "Sans", fun _ => 5, fun _ _ => 9⟩ [] 1 (some "42") none).2
        = (GenerateIcon ⟨true, "Sans", fun _ => 5, fun _ _ => 9⟩ [] 1 none none).2 :=
  ⟨by decide, by rw [desiredTextHeight_one]; decide,
    (GenerateIcon_no_fit ⟨true, "Sans", fun _ => 5, fun _ _ => 9⟩ [] 1 "42" none (by decide)
      (by rw [desiredTextHeight_one]; decide)).1⟩

/-! ## An empty text is no text -/

/-- C5.  For every size, optional dot colour and table state,
`GenerateIcon(size, "", dot)` returns the same image and leaves the same table
as `GenerateIcon(size, nullopt, dot)`; the table is left as it was, and the
image does not depend on the table or on the font metrics. -/
theorem GenerateIcon_empty_text (tk : Toolkit) (fonts : FontCache) (size : Int)
    (dot : Option QColor) :
    GenerateIcon tk fonts size (some "") dot = GenerateIcon tk fonts size none dot ∧
      (GenerateIcon tk fonts size (some "") dot).1 = fonts ∧
      ∀ (other : FontCache) (family : String) (fontHeight : QFont → Int)
        (textWidth : QFont → String → Int),
        (GenerateIcon ⟨tk.svgValid, family, fontHeight, textWidth⟩ other size (some "") dot).2
          = (GenerateIcon tk fonts size (some "") dot).2 := by
  refine ⟨rfl, rfl, ?_⟩
  intro other family fontHeight textWidth
  rfl

/-! ## Badge geometry -/

/-- C6.  For every size and every non-empty text whose font resolves to
`font`, with `w` the measured text width and `t` the line height of that font:
the badge block draws the rounded rectangle `bgRect` and then the text in
`textRect`; the background has width `w + 2 * 2` and height `t + 2 * 0`, its
right and bottom edges are at `size`, the text rectangle is
`(size - w - 2, size - t, w, t)`, and it is inset from the background by 2 on
the left and right and by 0 at the top and bottom. -/
theorem badge_geometry (tk : Toolkit) (fonts : FontCache) (size : Int) (text : String)
    (font : QFont) (htext : text ≠ "")
    (hfont : (resolveFont tk fonts (desiredTextHeight size)).2 = some font) :
    (badgeLayer tk fonts size (some text)).2 =
        [ PaintOp.setPen Qt.white, PaintOp.setBrush ⟨255, 36, 66, 255⟩, PaintOp.setFont font,
          PaintOp.drawRoundedRect
            (bgRect (textRect size (tk.textWidth font text) (tk.fontHeight font))) 10 10,
          PaintOp.drawText (textRect size (tk.textWidth font text) (tk.fontHeight font)) text ] ∧
      (bgRect (textRect size (tk.textWidth font text) (tk.fontHeight font))).width
        = (tk.textWidth font text : ℚ) + 2 * 2 ∧
      (bgRect (textRect size (tk.textWidth font text) (tk.fontHeight font))).height
        = (tk.fontHeight font : ℚ) + 2 * 0 ∧
      (bgRect (textRect size (tk.textWidth font text) (tk.fontHeight font))).right = size ∧
      (bgRect (textRect size (tk.textWidth font text) (tk.fontHeight font))).bottom = size ∧
      textRect size (tk.textWidth font text) (tk.fontHeight font)
        = ⟨(size : ℚ) - tk.textWidth font text - 2, (size : ℚ) - tk.fontHeight font,
            tk.textWidth font text, tk.fontHeight font⟩ ∧
      (textRect size (tk.textWidth font text) (tk.fontHeight font)).left
        = (bgRect (textRect size (tk.textWidth font text) (tk.fontHeight font))).left + 2 ∧
      (textRect size (tk.textWidth font text) (tk.fontHeight font)).right
        = (bgRect (textRect size (tk.textWidth font text) (tk.fontHeight font))).right - 2 ∧
      (textRect size (tk.textWidth font text) (tk.fontHeight font)).top
        = (bgRect (textRect size (tk.textWidth font text) (tk.fontHeight font))).top + 0 ∧
      (textRect size (tk.textWidth font text) (tk.fontHeight font)).bottom
        = (bgRect (textRect size (tk.textWidth font text) (tk.fontHeight font))).bottom - 0 := by
  refine ⟨?_, ?_, ?_, ?_, ?_, ?_, ?_, ?_, ?_, ?_⟩
  · rw [badgeLayer_of_text tk fonts size text htext, hfont]
    rfl
  all_goals
    simp only [bgRect, textRect, kMargin, QRectF.width, QRectF.height, QRectF.left, QRectF.top,
      QRectF.right, QRectF.bottom, QSizeF.width, QSizeF.height, QRectF.mk.injEq, sub_zero,
      and_self]
  all_goals ring

/-- Size 64 with the identity metrics: the font of size and height 51 is
found, the text is 30 wide, and the badge is drawn in the rectangles of
`bgRect` and `textRect`. -/
theorem badge_geometry_witness :
    "42" ≠ "" ∧
      (resolveFont ⟨true, "Sans", fun f => f.pointSize, fun _ _ => 30⟩ []
          (desiredTextHeight 64)).2 = some ⟨"Sans", 51, true⟩ ∧
      (bgRect (textRect 64 (30 : Int) ((51 : Int) : ℚ))).right = ((64 : Int) : ℚ) ∧
      (bgRect (textRect 64 (30 : Int) ((51 : Int) : ℚ))).bottom = ((64 : Int) : ℚ) :=
  ⟨by decide, by rw [desiredTextHeight_64]; decide,
    (badge_geometry ⟨true, "Sans", fun f => f.pointSize, fun _ _ => 30⟩ [] 64 "42"
      ⟨"Sans", 51, true⟩ (by decide) (by rw [desiredTextHeight_64]; decide)).2.2.2.1,
    (badge_geometry ⟨true, "Sans", fun f => f.pointSize, fun _ _ => 30⟩ [] 64 "42"
      ⟨"Sans", 51, true⟩ (by decide) (by rw [desiredTextHeight_64]; decide)).2.2.2.2.1⟩

/-! ## Lemmas about double arithmetic -/

/-- Rounding to an integer moves a value by at most one half. -/
theorem roundHalfEven_sub_le (q : ℚ) : |(roundHalfEven q : ℚ) - q| ≤ 1 / 2 := by
  have h1 : (⌊q⌋ : ℚ) ≤ q := Int.floor_le q
  have h2 : q < ⌊q⌋ + 1 := Int.lt_floor_add_one q
  unfold roundHalfEven
  rw [abs_le]
  split_ifs with a b c
  · constructor <;> linarith
  · push_cast; constructor <;> linarith
  · constructor <;> linarith
  · push_cast; constructor <;> linarith

/-- A value within one half of an even integer rounds to it. -/
theorem roundHalfEven_eq_of_even (q : ℚ) (T : Int) (hT : T % 2 = 0)
    (h : |q - T| ≤ 1 / 2) : roundHalfEven q = T := by
  rw [abs_le] at h
  obtain ⟨hlo, hhi⟩ := h
  by_cases hq : (T : ℚ) ≤ q
  · have hf : ⌊q⌋ = T := by
      rw [Int.floor_eq_iff]; constructor <;> linarith
    unfold roundHalfEven
    rw [hf]
    split_ifs with a b
    · rfl
    · exfalso; linarith
    · rfl
  · have hq' : q < T := not_le.1 hq
    have hf : ⌊q⌋ = T - 1 := by
      rw [Int.floor_eq_iff]; push_cast; constructor <;> linarith
    unfold roundHalfEven
    rw [hf]
    split_ifs with a b c
    · exfalso; push_cast at a; linarith
    · omega
    · exfalso; omega
    · omega

/-- Rounding to a double moves a value by at most half a unit in the last
place. -/
theorem roundDouble_sub_le (x : ℚ) :
    |roundDouble x - x| ≤ 2 ^ ulpExponent x / 2 := by
  have hpos : (0 : ℚ) < 2 ^ ulpExponent x := by positivity
  have h := roundHalfEven_sub_le (x / 2 ^ ulpExponent x)
  have : roundDouble x - x
      = ((roundHalfEven (x / 2 ^ ulpExponent x) : ℚ) - x / 2 ^ ulpExponent x)
          * 2 ^ ulpExponent x := by
    unfold roundDouble; field_simp
  rw [this, abs_mul, abs_of_pos hpos]
  calc |((roundHalfEven (x / 2 ^ ulpExponent x) : ℚ) - x / 2 ^ ulpExponent x)|
          * 2 ^ ulpExponent x
      ≤ 1 / 2 * 2 ^ ulpExponent x := by
        exact mul_le_mul_of_nonneg_right h hpos.le
    _ = 2 ^ ulpExponent x / 2 := by ring

/-- A value within half a unit in the last place of a double with an even
significand rounds to that double. -/
theorem roundDouble_eq_of_even (x : ℚ) (T : Int) (hT : T % 2 = 0)
    (h : |x - T * 2 ^ ulpExponent x| ≤ 2 ^ ulpExponent x / 2) :
    roundDouble x = T * 2 ^ ulpExponent x := by
  have hpos : (0 : ℚ) < 2 ^ ulpExponent x := by positivity
  have hq : |x / 2 ^ ulpExponent x - T| ≤ 1 / 2 := by
    have : x / 2 ^ ulpExponent x - T = (x - T * 2 ^ ulpExponent x) / 2 ^ ulpExponent x := by
      field_simp
      ring
    rw [this, abs_div, abs_of_pos hpos, div_le_iff₀ hpos]
    linarith
  unfold roundDouble
  rw [roundHalfEven_eq_of_even _ T hT hq]

/-- From 1/8 upwards the unit in the last place is 52 places below the
leading binary digit. -/
theorem ulpExponent_of_ge (x : ℚ) (hx : (1 : ℚ) / 8 ≤ x) :
    ulpExponent x = Int.log 2 x - 52 := by
  have hx0 : 0 < x := by linarith
  have hlog : (-3 : Int) ≤ Int.log 2 x := by
    rw [← Int.zpow_le_iff_le_log (by norm_num) hx0]
    norm_num
    linarith
  unfold ulpExponent
  rw [abs_of_pos hx0]
  omega

/-- The unit in the last place of `x` is at most `x / 2 ^ 52`. -/
theorem two_zpow_ulpExponent_le (x : ℚ) (hx : (1 : ℚ) / 8 ≤ x) :
    (2 : ℚ) ^ ulpExponent x ≤ x / 2 ^ (52 : Nat) := by
  have hx0 : 0 < x := by linarith
  rw [ulpExponent_of_ge x hx, zpow_sub₀ (by norm_num : (2:ℚ) ≠ 0)]
  have h := Int.zpow_log_le_self (b := 2) (by norm_num) hx0
  simp only [Nat.cast_ofNat] at h
  have : (2 : ℚ) ^ (52 : Int) = 2 ^ (52 : Nat) := by norm_cast
  rw [this]
  exact div_le_div_of_nonneg_right h (by positivity)

/-- The unit in the last place does not shrink as the value grows. -/
theorem ulpExponent_mono (x y : ℚ) (hx : (1 : ℚ) / 8 ≤ x) (hxy : x ≤ y) :
    ulpExponent x ≤ ulpExponent y := by
  rw [ulpExponent_of_ge x hx, ulpExponent_of_ge y (le_trans hx hxy)]
  have := Int.log_mono_right (b := 2) (by linarith : (0:ℚ) < x) hxy
  omega

/-- Below `2 ^ 52` the unit in the last place is a proper fraction. -/
theorem ulpExponent_lt_of_lt (y : ℚ) (hy : (1 : ℚ) / 8 ≤ y) (hlt : y < 2 ^ (52 : Nat)) :
    ulpExponent y < 0 := by
  rw [ulpExponent_of_ge y hy]
  have : Int.log 2 y < 52 := by
    rw [← Int.lt_zpow_iff_log_lt (by norm_num) (by linarith)]
    norm_num
    norm_num at hlt
    exact hlt
  omega

/-- For an integer `s` below `2 ^ 51` and a value `d` between a quarter and a
half of it, the double sum of the double difference `s - d` and `d` is `s`
again: the difference is off by at most half a unit in its last place, which
is at most half a unit in the last place of the sum, and `s` has an even
significand there. -/
theorem roundDouble_sub_add_cancel (s : Int) (d : ℚ) (hs : 1 ≤ s)
    (hs2 : (s : ℚ) < 2 ^ (51 : Nat)) (hd1 : (s : ℚ) / 4 ≤ d) (hd2 : d ≤ (s : ℚ) / 2) :
    roundDouble (roundDouble ((s : ℚ) - d) + d) = s := by
  have hsq : (1 : ℚ) ≤ (s : ℚ) := by exact_mod_cast hs
  have hz : (1 : ℚ) / 8 ≤ (s : ℚ) - d := by linarith
  have hzs : (s : ℚ) - d ≤ s := by linarith
  have herr := roundDouble_sub_le ((s : ℚ) - d)
  have hulp := two_zpow_ulpExponent_le ((s : ℚ) - d) hz
  have hulp0 : (0 : ℚ) < 2 ^ ulpExponent ((s : ℚ) - d) := by positivity
  have hsmall : ((s : ℚ) - d) / 2 ^ (52 : Nat) ≤ d := by
    have : ((s : ℚ) - d) / 2 ^ (52 : Nat) ≤ ((s : ℚ) - d) / 4 := by
      apply div_le_div_of_nonneg_left (by linarith) (by norm_num) (by norm_num)
    linarith
  rw [abs_le] at herr
  obtain ⟨hlo, hhi⟩ := herr
  have hzy : (s : ℚ) - d ≤ roundDouble ((s : ℚ) - d) + d := by linarith
  have hy : (1 : ℚ) / 8 ≤ roundDouble ((s : ℚ) - d) + d := le_trans hz hzy
  have hylt : roundDouble ((s : ℚ) - d) + d < 2 ^ (52 : Nat) := by
    have h1 : ((s : ℚ) - d) / 2 ^ (52 : Nat) ≤ (s : ℚ) := by
      have : ((s : ℚ) - d) / 2 ^ (52 : Nat) ≤ ((s : ℚ) - d) / 1 := by
        apply div_le_div_of_nonneg_left (by linarith) (by norm_num) (by norm_num)
      linarith
    have h2 : (2 : ℚ) ^ (52 : Nat) = 2 * 2 ^ (51 : Nat) := by norm_num
    linarith
  have hk := ulpExponent_mono _ _ hz hzy
  have hkneg := ulpExponent_lt_of_lt _ hy hylt
  have hpow : (2 : ℚ) ^ ulpExponent ((s : ℚ) - d)
      ≤ 2 ^ ulpExponent (roundDouble ((s : ℚ) - d) + d) :=
    zpow_le_zpow_right₀ (by norm_num) hk
  obtain ⟨n, hn⟩ : ∃ n : Nat, ulpExponent (roundDouble ((s : ℚ) - d) + d) = -((n : Int) + 1) :=
    ⟨(-ulpExponent (roundDouble ((s : ℚ) - d) + d) - 1).toNat, by omega⟩
  have hT : ((s * 2 ^ (n + 1) : Int) : ℚ) * 2 ^ ulpExponent (roundDouble ((s : ℚ) - d) + d)
      = s := by
    rw [hn]
    push_cast
    rw [zpow_neg]
    have : (2 : ℚ) ^ ((n : Int) + 1) = 2 ^ (n + 1) := by norm_cast
    rw [this]
    field_simp
  have heven : (s * 2 ^ (n + 1) : Int) % 2 = 0 := by
    have h2 : (s * 2 ^ (n + 1) : Int) = s * 2 ^ n * 2 := by ring
    rw [h2]
    exact Int.mul_emod_left _ _
  have := roundDouble_eq_of_even (roundDouble ((s : ℚ) - d) + d) (s * 2 ^ (n + 1)) heven (by
    rw [hT, abs_le]
    constructor <;> linarith)
  rw [this, hT]

/-- The literal `0.4` lies between 0.39 and 0.41. -/
theorem double0_4_bounds : (39 : ℚ) / 100 ≤ double0_4 ∧ double0_4 ≤ 41 / 100 := by
  have herr := roundDouble_sub_le 0.4
  have hulp := two_zpow_ulpExponent_le 0.4 (by norm_num)
  rw [abs_le] at herr
  have hpos : (0 : ℚ) < 2 ^ ulpExponent 0.4 := by positivity
  have : (0.4 : ℚ) / 2 ^ (52 : Nat) ≤ 1 / 100 := by norm_num
  unfold double0_4
  constructor <;> linarith [herr.1, herr.2]

/-- The double product `s * 0.4` lies between a quarter and a half of `s`. -/
theorem dot_bounds (s : Int) (hs : 1 ≤ s) :
    (s : ℚ) / 4 ≤ roundDouble ((s : ℚ) * double0_4) ∧
      roundDouble ((s : ℚ) * double0_4) ≤ (s : ℚ) / 2 := by
  have hsq : (1 : ℚ) ≤ (s : ℚ) := by exact_mod_cast hs
  obtain ⟨c1, c2⟩ := double0_4_bounds
  have hp1 : (39 : ℚ) / 100 * s ≤ (s : ℚ) * double0_4 := by nlinarith
  have hp2 : (s : ℚ) * double0_4 ≤ 41 / 100 * s := by nlinarith
  have hp : (1 : ℚ) / 8 ≤ (s : ℚ) * double0_4 := by linarith
  have herr := roundDouble_sub_le ((s : ℚ) * double0_4)
  have hulp := two_zpow_ulpExponent_le ((s : ℚ) * double0_4) hp
  rw [abs_le] at herr
  have : (s : ℚ) * double0_4 / 2 ^ (52 : Nat) ≤ (s : ℚ) * double0_4 / 100 := by
    apply div_le_div_of_nonneg_left (by linarith) (by norm_num) (by norm_num)
  have hpos : (0 : ℚ) < 2 ^ ulpExponent ((s : ℚ) * double0_4) := by positivity
  constructor <;> linarith [herr.1, herr.2]

/-- The double product `s * 0.4` differs from the exact 2/5 of `s` by at most
`s / 2 ^ 52`. -/
theorem dot_diameter_error (s : Int) (hs : 1 ≤ s) :
    |roundDouble ((s : ℚ) * double0_4) - 2 / 5 * s| ≤ (s : ℚ) / 2 ^ (52 : Nat) := by
  have hsq : (1 : ℚ) ≤ (s : ℚ) := by exact_mod_cast hs
  obtain ⟨c1, c2⟩ := double0_4_bounds
  have hc := roundDouble_sub_le 0.4
  have hculp := two_zpow_ulpExponent_le 0.4 (by norm_num)
  have hp : (1 : ℚ) / 8 ≤ (s : ℚ) * double0_4 := by nlinarith
  have herr := roundDouble_sub_le ((s : ℚ) * double0_4)
  have hulp := two_zpow_ulpExponent_le ((s : ℚ) * double0_4) hp
  have hc' : |double0_4 - 2 / 5| ≤ 2 / 5 / 2 ^ (52 : Nat) / 2 := by
    have h04 : (0.4 : ℚ) = 2 / 5 := by norm_num
    rw [h04] at hc hculp
    unfold double0_4
    rw [h04]
    linarith
  rw [abs_le] at herr hc' ⊢
  have e1 : (s : ℚ) * double0_4 / 2 ^ (52 : Nat) ≤ 41 / 100 * (s : ℚ) / 2 ^ (52 : Nat) := by
    apply div_le_div_of_nonneg_right _ (by positivity)
    nlinarith
  have e2 : (s : ℚ) * (double0_4 - 2 / 5) ≤ (s : ℚ) * (2 / 5 / 2 ^ (52 : Nat) / 2) :=
    mul_le_mul_of_nonneg_left hc'.2 (by linarith)
  have e3 : (s : ℚ) * (-(2 / 5 / 2 ^ (52 : Nat) / 2)) ≤ (s : ℚ) * (double0_4 - 2 / 5) :=
    mul_le_mul_of_nonneg_left hc'.1 (by linarith)
  have e4 : 41 / 100 * (s : ℚ) / 2 ^ (52 : Nat) / 2 + (s : ℚ) * (2 / 5 / 2 ^ (52 : Nat) / 2)
      ≤ (s : ℚ) / 2 ^ (52 : Nat) := by
    have : (0 : ℚ) ≤ (s : ℚ) / 2 ^ (52 : Nat) := by positivity
    linarith
  constructor <;> linarith [herr.1, herr.2]

/-! ## Dot geometry -/

/-- The badge block draws no ellipse. -/
theorem drawEllipse_not_mem_badgeLayer (tk : Toolkit) (fonts : FontCache) (size : Int)
    (optText : Option String) (r : QRectF) :
    PaintOp.drawEllipse r ∉ (badgeLayer tk fonts size optText).2 := by
  cases optText with
  | none => simp [badgeLayer]
  | some text =>
    by_cases htext : text = ""
    · simp [badgeLayer, htext]
    · rw [badgeLayer_of_text tk fonts size text htext]
      cases (resolveFont tk fonts (desiredTextHeight size)).2 with
      | none => simp
      | some font => simp [badgeOps]

/-- The base layer draws no ellipse. -/
theorem drawEllipse_not_mem_baseLayer (tk : Toolkit) (r : QRectF) :
    PaintOp.drawEllipse r ∉ baseLayer tk := by
  cases hv : tk.svgValid <;> simp [baseLayer, hv]

/-- C7.  For every `int` size > 0 and every present dot colour `c`, in
`double` arithmetic as the program computes it: the dot block sets the brush
to `c` and draws one ellipse, whose bounding box is
`(size - 0.4 * size, 0, 0.4 * size, 0.4 * size)`; its width and height are
both the double product `0.4 * size` (within `size / 2 ^ 52` of the exact
2/5 of `size`), its top edge is at 0, and its right edge, the double sum
`x + width` that `QRectF::right()` returns, is exactly `size`.  It is the only
ellipse among the paint calls of `GenerateIcon`.  When the dot colour is
absent, `GenerateIcon` draws no ellipse. -/
theorem dot_geometry (tk : Toolkit) (fonts : FontCache) (size : Int)
    (optText : Option String) (c : QColor) (hpos : 0 < size) (hmax : size ≤ 2147483647) :
    dotLayer size (some c) =
        [ PaintOp.setBrush c,
          PaintOp.drawEllipse
            ⟨Double.sub size (Double.mul size double0_4), 0,
              Double.mul size double0_4, Double.mul size double0_4⟩ ] ∧
      (QRectF.mk (Double.sub size (Double.mul size double0_4)) 0
          (Double.mul size double0_4) (Double.mul size double0_4)).width
        = Double.mul size double0_4 ∧
      (QRectF.mk (Double.sub size (Double.mul size double0_4)) 0
          (Double.mul size double0_4) (Double.mul size double0_4)).height
        = Double.mul size double0_4 ∧
      |Double.mul size double0_4 - 2 / 5 * size| ≤ (size : ℚ) / 2 ^ (52 : Nat) ∧
      (QRectF.mk (Double.sub size (Double.mul size double0_4)) 0
          (Double.mul size double0_4) (Double.mul size double0_4)).top = 0 ∧
      Double.add
          (QRectF.mk (Double.sub size (Double.mul size double0_4)) 0
            (Double.mul size double0_4) (Double.mul size double0_4)).x
          (QRectF.mk (Double.sub size (Double.mul size double0_4)) 0
            (Double.mul size double0_4) (Double.mul size double0_4)).width
        = size ∧
      (∃ image, (GenerateIcon tk fonts size optText (some c)).2 = some image ∧
        ∀ r, PaintOp.drawEllipse r ∈ image.ops ↔
          r = ⟨Double.sub size (Double.mul size double0_4), 0,
                Double.mul size double0_4, Double.mul size double0_4⟩) ∧
      (∃ image, (GenerateIcon tk fonts size optText none).2 = some image ∧
        drawsEllipse image = false ∧ ∀ r, PaintOp.drawEllipse r ∉ image.ops) := by
  have hone : 1 ≤ size := by omega
  have hlt : (size : ℚ) < 2 ^ (51 : Nat) := by
    have : size < 2 ^ (51 : Nat) := by
      have : (2147483647 : Int) < 2 ^ (51 : Nat) := by norm_num
      omega
    exact_mod_cast this
  have hnone : ∀ r, PaintOp.drawEllipse r ∉
      baseLayer tk ++ [PaintOp.save] ++ (badgeLayer tk fonts size optText).2 ++
        [PaintOp.restore] ++ [PaintOp.save] ++ dotLayer size none ++ [PaintOp.restore] := by
    intro r
    have h1 := drawEllipse_not_mem_badgeLayer tk fonts size optText r
    have h2 := drawEllipse_not_mem_baseLayer tk r
    simp [dotLayer, h1, h2]
  refine ⟨rfl, rfl, rfl, dot_diameter_error size hone, rfl, ?_, ⟨_, rfl, ?_⟩,
    ⟨_, rfl, ?_, hnone⟩⟩
  · exact roundDouble_sub_add_cancel size _ hone hlt (dot_bounds size hone).1
      (dot_bounds size hone).2
  · intro r
    have h1 := drawEllipse_not_mem_badgeLayer tk fonts size optText r
    have h2 := drawEllipse_not_mem_baseLayer tk r
    simp [dotLayer, h1, h2]
  · simp only [drawsEllipse, List.any_eq_false]
    intro op hop
    cases op with
    | drawEllipse r => exact absurd hop (hnone r)
    | _ => simp

/-- Size 64: subtracting the double `64 * 0.4` from 64 and adding it back in
double arithmetic gives 64, the right edge of the dot. -/
theorem dot_geometry_witness :
    (0 : Int) < 64 ∧ (64 : Int) ≤ 2147483647 ∧
      Double.add (Double.sub ((64 : Int) : ℚ) (Double.mul ((64 : Int) : ℚ) double0_4))
          (Double.mul ((64 : Int) : ℚ) double0_4)
        = ((64 : Int) : ℚ) :=
  ⟨by decide, by decide,
    (dot_geometry ⟨true, "Sans", fun f => f.pointSize, fun _ _ => 30⟩ [] 64 none
      ⟨0, 0, 255, 255⟩ (by decide) (by decide)).2.2.2.2.2.1⟩

/-! ## `UpdateState`: the minimum pod battery and the icon choice -/

/-- C8.  For every device state (pod batteries `l`, `r`, charging flags `lc`,
`rc`, case battery `cb`, case charging flag `cc`): `minBattery` is present
exactly when `l` or `r` is, and is then `l` alone, `r` alone, or the minimum
of both; the right-hand sides mention neither the case nor a charging flag. -/
theorem minBattery_eq_min (l r cb : Option Nat) (lc rc cc : Bool) :
    minBattery ⟨⟨⟨l, lc⟩, ⟨r, rc⟩⟩, ⟨cb, cc⟩⟩ =
        (match l, r with
          | none, none => none
          | some a, none => some a
          | none, some b => some b
          | some a, some b => some (min a b)) ∧
      ((minBattery ⟨⟨⟨l, lc⟩, ⟨r, rc⟩⟩, ⟨cb, cc⟩⟩).isSome = true ↔
        l.isSome = true ∨ r.isSome = true) ∧
      ∀ (cb2 : Option Nat) (lc2 rc2 cc2 : Bool),
        minBattery ⟨⟨⟨l, lc2⟩, ⟨r, rc2⟩⟩, ⟨cb2, cc2⟩⟩ = minBattery ⟨⟨⟨l, lc⟩, ⟨r, rc⟩⟩, ⟨cb, cc⟩⟩ := by
  refine ⟨?_, ?_, fun _ _ _ _ => rfl⟩
  · cases l with
    | none => cases r <;> simp [minBattery]
    | some a =>
      cases r with
      | none => simp [minBattery]
      | some b =>
        simp only [minBattery, Option.isSome_some, Bool.not_true, Bool.or_false,
          decide_eq_true_eq]
        by_cases hab : b < a
        · rw [if_pos hab, min_eq_right (le_of_lt hab)]
        · rw [if_neg hab, min_eq_left (not_lt.1 hab)]
  · cases l <;> cases r <;> simp [minBattery]
    split <;> simp

/-- With a pod battery present and the setting enabled, `UpdateState` calls
`GenerateIcon(64, QString::number(m), nullopt)` and sets its image. -/
theorem UpdateState_of_enabled (app : App) (tk : Toolkit) (fonts : FontCache) (state : State)
    (m : Nat) (hm : minBattery state = some m) (hset : app.trayIconBattery = true) :
    ∃ image, (GenerateIcon tk fonts 64 (some (toString m)) none).2 = some image ∧
      UpdateState app tk fonts state =
        ((GenerateIcon tk fonts 64 (some (toString m)) none).1,
          [ Effect.setToolTip (toolTip app state),
            Effect.callGenerateIcon 64 (some (toString m)) none,
            Effect.setIconImage image ]) := by
  refine ⟨_, rfl, ?_⟩
  simp only [UpdateState, hm, hset]
  rfl

/-- Without a pod battery, or with the setting disabled, `UpdateState` sets
the window icon and leaves the font table alone. -/
theorem UpdateState_of_not_enabled (app : App) (tk : Toolkit) (fonts : FontCache)
    (state : State) (h : ¬ ((minBattery state).isSome = true ∧ app.trayIconBattery = true)) :
    UpdateState app tk fonts state =
      (fonts, [Effect.setToolTip (toolTip app state), Effect.setIconWindowIcon]) := by
  cases hm : minBattery state with
  | none => simp only [UpdateState, hm]
  | some m =>
    cases hset : app.trayIconBattery with
    | false => simp only [UpdateState, hm, hset]
    | true => exact absurd ⟨by rw [hm]; rfl, hset⟩ h

/-- The effects of `UpdateState` in terms of its local `minBattery`. -/
theorem UpdateState_effects_of_minBattery (app : App) (tk : Toolkit) (fonts : FontCache)
    (state : State) :
    ((∃ size optText dot,
          Effect.callGenerateIcon size optText dot ∈ (UpdateState app tk fonts state).2) ↔
        ((minBattery state).isSome = true ∧ app.trayIconBattery = true)) ∧
      (∀ size optText dot,
        Effect.callGenerateIcon size optText dot ∈ (UpdateState app tk fonts state).2 →
          size = 64 ∧ optText = (minBattery state).map toString ∧ dot = none) ∧
      (∀ m, minBattery state = some m → app.trayIconBattery = true →
        ∃ image, (GenerateIcon tk fonts 64 (some (toString m)) none).2 = some image ∧
          UpdateState app tk fonts state =
            ((GenerateIcon tk fonts 64 (some (toString m)) none).1,
              [ Effect.setToolTip (toolTip app state),
                Effect.callGenerateIcon 64 (some (toString m)) none,
                Effect.setIconImage image ])) ∧
      (¬ ((minBattery state).isSome = true ∧ app.trayIconBattery = true) →
        UpdateState app tk fonts state =
          (fonts, [Effect.setToolTip (toolTip app state), Effect.setIconWindowIcon])) ∧
      (Effect.setIconWindowIcon ∈ (UpdateState app tk fonts state).2 ↔
        ¬ ((minBattery state).isSome = true ∧ app.trayIconBattery = true)) := by
  by_cases h : (minBattery state).isSome = true ∧ app.trayIconBattery = true
  · obtain ⟨hsome, hset⟩ := h
    obtain ⟨m, hm⟩ := Option.isSome_iff_exists.1 hsome
    obtain ⟨image, himg, hup⟩ := UpdateState_of_enabled app tk fonts state m hm hset
    refine ⟨?_, ?_, ?_, ?_, ?_⟩
    · rw [hup]
      simp [hm, hset]
    · intro size optText dot hmem
      rw [hup] at hmem
      simp only [List.mem_cons, List.mem_singleton, Effect.callGenerateIcon.injEq,
        reduceCtorEq, false_or, or_false, List.not_mem_nil] at hmem
      rw [hm]
      exact ⟨hmem.1, hmem.2.1, hmem.2.2⟩
    · intro m2 hm2 _
      have : m2 = m := by rw [hm] at hm2; exact (Option.some.inj hm2).symm
      subst this
      exact ⟨image, himg, hup⟩
    · intro hn
      exact absurd ⟨hsome, hset⟩ hn
    · rw [hup]
      simp [hm, hset]
  · have hup := UpdateState_of_not_enabled app tk fonts state h
    refine ⟨?_, ?_, ?_, fun _ => hup, ?_⟩
    · rw [hup]
      simp [h]
    · intro size optText dot hmem
      rw [hup] at hmem
      simp at hmem
    · intro m hm hset
      exact absurd ⟨by rw [hm]; rfl, hset⟩ h
    · rw [hup]
      simp [h]

/-- C9.  For every device state and every value of the `tray_icon_battery`
setting: `UpdateState` calls `GenerateIcon` exactly when the left or the right
pod battery is present and the setting is enabled; every such call has size
64, the decimal rendering of the minimum of the present pod batteries as text
and no dot, and its image is set as the tray icon; in every other case (no pod
battery present, or the setting disabled) the effects are the tool tip
followed by the default window icon, with no call of `GenerateIcon` and the
font table untouched. -/
theorem UpdateState_icon_choice (app : App) (tk : Toolkit) (fonts : FontCache)
    (state : State) :
    ((∃ size optText dot,
          Effect.callGenerateIcon size optText dot ∈ (UpdateState app tk fonts state).2) ↔
        ((state.pods.left.battery.isSome = true ∨ state.pods.right.battery.isSome = true) ∧
          app.trayIconBattery = true)) ∧
      (∀ size optText dot,
        Effect.callGenerateIcon size optText dot ∈ (UpdateState app tk fonts state).2 →
          size = 64 ∧ optText = (minPodBattery state).map toString ∧ dot = none) ∧
      (∀ m, minPodBattery state = some m → app.trayIconBattery = true →
        ∃ image, (GenerateIcon tk fonts 64 (some (toString m)) none).2 = some image ∧
          UpdateState app tk fonts state =
            ((GenerateIcon tk fonts 64 (some (toString m)) none).1,
              [ Effect.setToolTip (toolTip app state),
                Effect.callGenerateIcon 64 (some (toString m)) none,
                Effect.setIconImage image ])) ∧
      ((state.pods.left.battery.isSome = true ∨ state.pods.right.battery.isSome = true) →
        ∃ m, minPodBattery state = some m) ∧
      (¬ ((state.pods.left.battery.isSome = true ∨ state.pods.right.battery.isSome = true) ∧
            app.trayIconBattery = true) →
        UpdateState app tk fonts state =
          (fonts, [Effect.setToolTip (toolTip app state), Effect.setIconWindowIcon])) ∧
      (Effect.setIconWindowIcon ∈ (UpdateState app tk fonts state).2 ↔
        ¬ ((state.pods.left.battery.isSome = true ∨ state.pods.right.battery.isSome = true) ∧
            app.trayIconBattery = true)) := by
  have hmin : minBattery state = minPodBattery state := by
    obtain ⟨⟨⟨l, lc⟩, ⟨r, rc⟩⟩, cb⟩ := state
    cases l with
    | none => cases r <;> simp [minBattery, minPodBattery]
    | some a =>
      cases r with
      | none => simp [minBattery, minPodBattery]
      | some b =>
        simp only [minBattery, minPodBattery, Option.isSome_some, Bool.not_true, Bool.or_false,
          decide_eq_true_eq]
        by_cases hab : b < a
        · rw [if_pos hab, min_eq_right (le_of_lt hab)]
        · rw [if_neg hab, min_eq_left (not_lt.1 hab)]
  have hpres : (state.pods.left.battery.isSome = true ∨ state.pods.right.battery.isSome = true)
      ↔ (minBattery state).isSome = true := by
    rw [hmin]
    obtain ⟨⟨⟨l, lc⟩, ⟨r, rc⟩⟩, cb⟩ := state
    cases l <;> cases r <;> simp [minPodBattery]
  obtain ⟨h1, h2, h3, h4, h5⟩ := UpdateState_effects_of_minBattery app tk fonts state
  rw [hmin] at h2 h3
  refine ⟨?_, h2, h3, ?_, ?_, ?_⟩
  · rw [hpres]; exact h1
  · intro hp
    have := hpres.1 hp
    rw [hmin] at this
    exact Option.isSome_iff_exists.1 this
  · rw [hpres]; exact h4
  · rw [hpres]; exact h5

/-! ## Font fitting for a non-positive height -/

/-- C10, counterexample.  For `h = 0`, heights `H 1 = -1` and `H p = 1` for
the other sizes: no size has the height 0, yet the scan returns the size 2,
through the crossing branch (the previous height -1 is below 0 and the
current height 1 is above it). -/
theorem adjustFont_crossing_at_zero :
    adjustFont (fun f => if f.pointSize = 1 then -1 else 1) "Sans" 0
        = some ⟨"Sans", 2, true⟩ ∧
      suitable 0 (-1) 1 = true ∧
      NoExact (lineHeight (fun f => if f.pointSize = 1 then -1 else 1) "Sans") 0 := by
  refine ⟨by decide, by decide, ?_⟩
  intro q _ _
  simp only [lineHeight]
  split <;> decide

/-- C10, as the code has it.  Size 1 asks for the height 0.  For every
`h ≤ 0` and every toolkit none of whose line heights `H 1 .. H 99` is below
`h` (in particular when they are all non-negative): the crossing branch never
decides, so `adjustFont` returns a font exactly when it is the bold font of
the least size in `1..99` with `H p = h`, and `std::nullopt` exactly when no
size has the height `h`.  When moreover all of `H 1 .. H 99` are positive, the
result is `std::nullopt`, and `GenerateIcon(1, text, dot)` with a non-empty
text, called with a font table holding no font under the key 0, returns the
image of the call without a text: no badge is drawn. -/
theorem adjustFont_nonpositive (tk : Toolkit) (h : Int) (hh : h ≤ 0)
    (hH : ∀ p, 1 ≤ p → p ≤ 99 → h ≤ lineHeight tk.fontHeight tk.appFontFamily p) :
    desiredTextHeight 1 = 0 ∧
      (∀ last cur, h ≤ last → (suitable h last cur = true ↔ cur = h)) ∧
      (∀ f : QFont, adjustFont tk.fontHeight tk.appFontFamily h = some f ↔
        f.family = tk.appFontFamily ∧ f.bold = true ∧
          IsLeastExact (lineHeight tk.fontHeight tk.appFontFamily) h f.pointSize) ∧
      (adjustFont tk.fontHeight tk.appFontFamily h = none ↔
        NoExact (lineHeight tk.fontHeight tk.appFontFamily) h) ∧
      ((∀ p, 1 ≤ p → p ≤ 99 → 0 < lineHeight tk.fontHeight tk.appFontFamily p) →
        adjustFont tk.fontHeight tk.appFontFamily h = none ∧
          ∀ (fonts : FontCache) (text : String) (dot : Option QColor), text ≠ "" →
            (∀ f, fonts.find 0 ≠ some (some f)) →
            (GenerateIcon tk fonts 1 (some text) dot).2 = (GenerateIcon tk fonts 1 none dot).2 ∧
              ∃ image, (GenerateIcon tk fonts 1 (some text) dot).2 = some image ∧
                drawsBadge image = false) := by
  have hrange : ∀ q : Int, 1 ≤ q → q < 1 + ((99 : Nat) : Int) →
      h ≤ lineHeight tk.fontHeight tk.appFontFamily q :=
    fun q h1 h2 => hH q h1 (by push_cast at h2; omega)
  have hnone : adjustFont tk.fontHeight tk.appFontFamily h = none ↔
      NoExact (lineHeight tk.fontHeight tk.appFontFamily) h := by
    rw [adjustFont, adjustFontLoop_none_of_le_last tk.fontHeight tk.appFontFamily h 99 1 0 hh
      hrange]
    simp only [NoExact]
    constructor
    · intro hall q h1 h2
      exact hall q h1 (by push_cast; omega)
    · intro hall q h1 h2
      exact hall q h1 (by push_cast at h2; omega)
  refine ⟨desiredTextHeight_one, fun last cur hl => suitable_of_le_last hl, ?_, hnone, ?_⟩
  · intro f
    rw [adjustFont, adjustFontLoop_some_of_le_last tk.fontHeight tk.appFontFamily h 99 1 0 hh
      hrange f]
    simp only [IsLeastExact]
    constructor
    · rintro ⟨h1, h2, h3, h4, h5, h6⟩
      exact ⟨h1, h2, h3, by push_cast at h4; omega, h5, h6⟩
    · rintro ⟨h1, h2, h3, h4, h5, h6⟩
      exact ⟨h1, h2, h3, by push_cast; omega, h5, h6⟩
  · intro hpos
    have hno : ∀ k : Int, k ≤ 0 → (∀ p, 1 ≤ p → p ≤ 99 →
        k ≤ lineHeight tk.fontHeight tk.appFontFamily p) →
        adjustFont tk.fontHeight tk.appFontFamily k = none := by
      intro k hk hkH
      rw [adjustFont, adjustFontLoop_none_of_le_last tk.fontHeight tk.appFontFamily k 99 1 0 hk
        (fun q h1 h2 => hkH q h1 (by push_cast at h2; omega))]
      intro q h1 h2
      have := hpos q h1 (by push_cast at h2; omega)
      omega
    refine ⟨hno h hh hH, ?_⟩
    intro fonts text dot htext hfonts
    have hzero : adjustFont tk.fontHeight tk.appFontFamily 0 = none :=
      hno 0 (le_refl _) (fun p h1 h2 => le_of_lt (hpos p h1 h2))
    have hres : (resolveFont tk fonts (desiredTextHeight 1)).2 = none := by
      rw [desiredTextHeight_one]
      cases hfind : fonts.find 0 with
      | none => rw [resolveFont_of_find_none tk fonts 0 hfind]; exact hzero
      | some v =>
        rw [resolveFont_of_find tk fonts 0 v hfind]
        cases v with
        | none => rfl
        | some f => exact absurd hfind (hfonts f)
    obtain ⟨h1, image, h2, _, h3⟩ := GenerateIcon_image_of_no_font tk fonts 1 text dot htext hres
    exact ⟨h1, image, h2, h3⟩

/-- A toolkit whose fonts all have height 5, asked for the height 0: no fit. -/
theorem adjustFont_nonpositive_witness :
    (0 : Int) ≤ 0 ∧
      adjustFont (fun _ => 5) "Sans" 0 = none :=
  ⟨le_refl _,
    ((adjustFont_nonpositive ⟨true, "Sans", fun _ => 5, fun _ _ => 9⟩ 0 (le_refl _)
        (fun _ _ _ => by simp only [lineHeight]; decide)).2.2.2.2
      (fun _ _ _ => by simp only [lineHeight]; decide)).1⟩

end Gui
